import Mathlib

/-!
Shallow embedding of the rain2d software renderer (src/core/color.rs,
src/core/rendertarget.rs, src/core/mod.rs) and proofs about it.

Modelling conventions:
* Rust `u8` channels become `Fin 256`; `u32` pixel words become `Nat`
  (with explicit `% 2 ^ 32`-style truncation where the Rust casts truncate).
* Rust `i32` coordinates become `Int` (no coordinate in any claim comes
  near the i32 overflow boundary).
* `Vec<u32>` becomes `List Nat`.
* The rasterizer routines are embedded twice over the very same pixel
  arithmetic: a trace-level function `*Pts` returning the list of
  coordinates passed to `RenderTarget.set_pixel` in call order, and a
  state-level function folding `set_pixel` over that trace.  This mirrors
  the Rust code, where every write goes through `set_pixel`.
* The floating-point accumulators of the triangle filler (`f32`) are
  modelled by `Rat`; every concrete scenario proved below only involves
  quarter-integer values far below 2^24, on which `f32` addition,
  division, and `f32::round` are exact, so the rational model agrees
  with the `f32` computation bit for bit.
-/

/-- Color representation (src/core/color.rs): four 8-bit channels. -/
structure Color where
  r : Fin 256
  g : Fin 256
  b : Fin 256
  a : Fin 256
deriving DecidableEq, Repr

/-- `impl Into<u32> for Color`: `(a << 24) | (r << 16) | (g << 8) | b`. -/
def colorToU32 (c : Color) : Nat :=
  (((c.a.val <<< 24) ||| (c.r.val <<< 16)) ||| (c.g.val <<< 8)) ||| c.b.val

/-- `impl From<u32> for Color`: inverse shifts; the Rust `as u8` casts keep
the low 8 bits, i.e. reduce modulo 256. -/
def colorFromU32 (n : Nat) : Color :=
  { a := ⟨(n >>> 24) % 256, Nat.mod_lt _ (by decide)⟩
    r := ⟨(n >>> 16) % 256, Nat.mod_lt _ (by decide)⟩
    g := ⟨(n >>> 8) % 256, Nat.mod_lt _ (by decide)⟩
    b := ⟨n % 256, Nat.mod_lt _ (by decide)⟩ }

/-- `WHITE` constant (src/core/color.rs). -/
def WHITE : Color := ⟨255, 255, 255, 255⟩

/-- `NONE` constant (src/core/color.rs): transparent black. -/
def NONE : Color := ⟨0, 0, 0, 0⟩

/-- The frame buffer (src/core/rendertarget.rs). -/
structure RenderTarget where
  width : Nat
  height : Nat
  data : List Nat
deriving DecidableEq, Repr

/-- `RenderTarget::new`: storage of length `width * height`, zero filled. -/
def RenderTarget.new (width height : Nat) : RenderTarget :=
  { width := width, height := height, data := List.replicate (width * height) 0 }

/-- `RenderTarget::set_pixel`: bounds-checked write of the packed color at
index `x + y * width`; silent no-op out of bounds. -/
def RenderTarget.set_pixel (t : RenderTarget) (x y : Int) (color : Color) : RenderTarget :=
  if 0 ≤ x ∧ x < (t.width : Int) ∧ 0 ≤ y ∧ y < (t.height : Int) then
    { t with data := t.data.set (x + y * (t.width : Int)).toNat (colorToU32 color) }
  else t

/-- `RenderTarget::get_pixel`: bounds-checked unpacked read at
`x as usize + y as usize * width`, `None` out of bounds.  (The Rust read
indexes the vector directly; the `getD _ 0` default is never exercised
when the documented invariant `data.length = width * height` holds.) -/
def RenderTarget.get_pixel (t : RenderTarget) (x y : Int) : Option Color :=
  if 0 ≤ x ∧ x < (t.width : Int) ∧ 0 ≤ y ∧ y < (t.height : Int) then
    some (colorFromU32 (t.data.getD (x.toNat + y.toNat * t.width) 0))
  else none

/-- `RenderTarget::clear`: every stored word overwritten with the packed color. -/
def RenderTarget.clear (t : RenderTarget) (color : Color) : RenderTarget :=
  { t with data := t.data.map (fun _ => colorToU32 color) }

/-- Modelled from the spec: the integer coordinate pair `Point` (the `IVec2`
type of the repository's `math` module, which is not under src/; the spec
describes it as "an integer (x,y) coordinate pair used by all drawing entry
points"). -/
structure IVec2 where
  x : Int
  y : Int
deriving DecidableEq, Repr

/-- The general-case loop of `RainCore::draw_line` (Bresenham stepping).
Each iteration plots the current point, breaks when the target is reached or
the current coordinate is `< 0` or strictly greater than the screen bound,
then updates the error term and steps.  The step signs are passed as the
booleans `x1 < x2` / `y1 < y2` computed at entry, exactly as the source
computes `sx`/`sy` once before the loop.  The two propositional arguments
record that this branch is only entered with `dx ≠ 0` and `dy ≠ 0`; they are
what makes the loop provably terminating. -/
def bresLoop (w h : Nat) (x2 y2 dx dy : Int) (sxPos syPos : Bool)
    (hdx : 1 ≤ dx) (hdy : 1 ≤ dy) (x1 y1 err : Int) : List IVec2 :=
  ⟨x1, y1⟩ ::
    (if (x1 = x2 ∧ y1 = y2) ∨ x1 < 0 ∨ (w : Int) < x1 ∨ y1 < 0 ∨ (h : Int) < y1 then []
     else
       let sx : Int := if sxPos then 1 else -1
       let sy : Int := if syPos then 1 else -1
       let err1 := if -dx < err then err - dy else err
       let x1' := if -dx < err then x1 + sx else x1
       let err2 := if err1 < dy then err1 + dx else err1
       let y1' := if err1 < dy then y1 + sy else y1
       bresLoop w h x2 y2 dx dy sxPos syPos hdx hdy x1' y1' err2)
termination_by
  ((if sxPos then (w : Int) + 1 - x1 else x1) + (if syPos then (h : Int) + 1 - y1 else y1) + 2).toNat
decreasing_by
  rename_i hstop
  split_ifs <;> omega

/-- `RainCore::draw_line`: the list of coordinates passed to `set_pixel`,
in call order.  `w`/`h` are `screen_width`/`screen_height`.  The vertical
and horizontal special cases iterate over a half-open range after swapping
the endpoints into order; the `for` loops are embedded as `List.range` maps.
`dx`/`dy` are the `i32::abs` differences; the error term seed `-(dy / 2)`
is Rust's truncated division of `-dy` by 2 (for `dy ≥ 0` truncated division
of `-dy` equals the negated quotient). -/
def drawLinePts (w h : Nat) (p1 p2 : IVec2) : List IVec2 :=
  let x1 := p1.x
  let y1 := p1.y
  let x2 := p2.x
  let y2 := p2.y
  let dx := |x2 - x1|
  let dy := |y2 - y1|
  if hdx : dx = 0 then
    let lo := if y2 < y1 then y2 else y1
    let hi := if y2 < y1 then y1 else y2
    (List.range (hi - lo).toNat).map (fun (i : Nat) => ⟨x1, lo + (i : Int)⟩)
  else if hdy : dy = 0 then
    let lo := if x2 < x1 then x2 else x1
    let hi := if x2 < x1 then x1 else x2
    (List.range (hi - lo).toNat).map (fun (i : Nat) => ⟨lo + (i : Int), y1⟩)
  else
    bresLoop w h x2 y2 dx dy (decide (x1 < x2)) (decide (y1 < y2))
      (by have h0 := abs_nonneg (x2 - x1); omega)
      (by have h0 := abs_nonneg (y2 - y1); omega)
      x1 y1 (if dy < dx then dx / 2 else -(dy / 2))

/-- The `while y0 >= x0` loop of `RainCore::draw_circle`: eight symmetric
point plots per iteration, then the midpoint recurrence (in the `else`
branch `d` is updated from the already incremented `x0` and decremented
`y0`, as in the source). -/
def drawCircleLoopPts (cx cy : Int) (x0 y0 d : Int) : List IVec2 :=
  if x0 ≤ y0 then
    [⟨cx + x0, cy - y0⟩, ⟨cx + y0, cy - x0⟩, ⟨cx + y0, cy + x0⟩, ⟨cx + x0, cy + y0⟩,
     ⟨cx - x0, cy - y0⟩, ⟨cx - y0, cy - x0⟩, ⟨cx - y0, cy + x0⟩, ⟨cx - x0, cy + y0⟩] ++
    (if d < 0 then drawCircleLoopPts cx cy (x0 + 1) y0 (d + 4 * x0 + 6)
     else drawCircleLoopPts cx cy (x0 + 1) (y0 - 1) (d + 4 * (x0 + 1 - (y0 - 1)) + 10))
  else []
termination_by (y0 + 1 - x0).toNat
decreasing_by
  all_goals omega

/-- `RainCore::draw_circle`: `x0 = 0`, `y0 = r`, `d = 3 - 2r`; a radius
`r ≤ 0` returns before plotting anything. -/
def drawCirclePts (pos : IVec2) (r : Int) : List IVec2 :=
  if r ≤ 0 then [] else drawCircleLoopPts pos.x pos.y 0 r (3 - 2 * r)

/-- The `while y0 >= x0` loop of `RainCore::fill_circle`: four horizontal
chords per iteration (each drawn through `draw_line`), same recurrence. -/
def fillCircleLoopPts (w h : Nat) (cx cy : Int) (x0 y0 d : Int) : List IVec2 :=
  if x0 ≤ y0 then
    drawLinePts w h ⟨cx - x0, cy - y0⟩ ⟨cx + x0, cy - y0⟩ ++
    drawLinePts w h ⟨cx - y0, cy - x0⟩ ⟨cx + y0, cy - x0⟩ ++
    drawLinePts w h ⟨cx - x0, cy + y0⟩ ⟨cx + x0, cy + y0⟩ ++
    drawLinePts w h ⟨cx - y0, cy + x0⟩ ⟨cx + y0, cy + x0⟩ ++
    (if d < 0 then fillCircleLoopPts w h cx cy (x0 + 1) y0 (d + 4 * x0 + 6)
     else fillCircleLoopPts w h cx cy (x0 + 1) (y0 - 1) (d + 4 * (x0 + 1 - (y0 - 1)) + 10))
  else []
termination_by (y0 + 1 - x0).toNat
decreasing_by
  all_goals omega

/-- `RainCore::fill_circle`: same guard and seed as `draw_circle`. -/
def fillCirclePts (w h : Nat) (pos : IVec2) (r : Int) : List IVec2 :=
  if r ≤ 0 then [] else fillCircleLoopPts w h pos.x pos.y 0 r (3 - 2 * r)

/-- The chords drawn by the `fill_circle` loop, as (half-width, scanline)
pairs in draw order: each iteration contributes half-width `x0` at the two
scanlines `cy ∓ y0` and half-width `y0` at the two scanlines `cy ∓ x0`;
the chord for `(k, Y)` is the `draw_line` segment `(cx-k,Y)`–`(cx+k,Y)`. -/
def fillCircleChordsLoop (cx cy : Int) (x0 y0 d : Int) : List (Int × Int) :=
  if x0 ≤ y0 then
    [(x0, cy - y0), (y0, cy - x0), (x0, cy + y0), (y0, cy + x0)] ++
    (if d < 0 then fillCircleChordsLoop cx cy (x0 + 1) y0 (d + 4 * x0 + 6)
     else fillCircleChordsLoop cx cy (x0 + 1) (y0 - 1) (d + 4 * (x0 + 1 - (y0 - 1)) + 10))
  else []
termination_by (y0 + 1 - x0).toNat
decreasing_by
  all_goals omega

/-- `RainCore::draw_rect`: four `draw_line` edges, top, right, bottom, left. -/
def drawRectPts (w h : Nat) (pos size : IVec2) : List IVec2 :=
  let p2 : IVec2 := ⟨pos.x + size.x, pos.y⟩
  let p3 : IVec2 := ⟨pos.x + size.x, pos.y + size.y⟩
  let p4 : IVec2 := ⟨pos.x, pos.y + size.y⟩
  drawLinePts w h pos p2 ++ drawLinePts w h p2 p3 ++
    drawLinePts w h p3 p4 ++ drawLinePts w h p4 pos

/-- `q.floor`: floor division of numerator by denominator. -/
def ratFloor (q : Rat) : Int := Int.fdiv q.num (q.den : Int)

/-- `f32::round`: round half away from zero.  On the quarter-integer values
arising in the concrete scenarios below this agrees exactly with `f32`. -/
def ratRound (q : Rat) : Int :=
  if q < 0 then -ratFloor (-q + 1 / 2) else ratFloor (q + 1 / 2)

/-- The scanline loop of `RainCore::fill_triangle_bottom`
(`for y in p1.y..=p2.y`), with the two floating x-accumulators advanced by
their slopes after each drawn line; `n` is the number of remaining
scanlines. -/
def triScanUp (w h : Nat) (a1 a2 s1 s2 : Rat) (y : Int) : Nat → List IVec2
  | 0 => []
  | n + 1 =>
    drawLinePts w h ⟨ratRound a1, y⟩ ⟨ratRound a2, y⟩ ++
      triScanUp w h (a1 + s1) (a2 + s2) s1 s2 (y + 1) n

/-- The scanline loop of `RainCore::fill_triangle_top`
(`for y in (p1.y..=p3.y).rev()`), accumulators decremented by the slopes. -/
def triScanDown (w h : Nat) (a1 a2 s1 s2 : Rat) (y : Int) : Nat → List IVec2
  | 0 => []
  | n + 1 =>
    drawLinePts w h ⟨ratRound a1, y⟩ ⟨ratRound a2, y⟩ ++
      triScanDown w h (a1 - s1) (a2 - s2) s1 s2 (y - 1) n

/-- `RainCore::fill_triangle_bottom`: slopes toward the two base vertices,
both accumulators start at the apex x. -/
def fillTriangleBottomPts (w h : Nat) (p1 p2 p3 : IVec2) : List IVec2 :=
  let s1 : Rat := ((p2.x - p1.x : Int) : Rat) / ((p2.y - p1.y : Int) : Rat)
  let s2 : Rat := ((p3.x - p1.x : Int) : Rat) / ((p3.y - p1.y : Int) : Rat)
  triScanUp w h ((p1.x : Int) : Rat) ((p1.x : Int) : Rat) s1 s2 p1.y (p2.y + 1 - p1.y).toNat

/-- `RainCore::fill_triangle_top`: slopes toward the apex `p3`, accumulators
start at the apex x, iterating downward from `p3.y` to `p1.y`. -/
def fillTriangleTopPts (w h : Nat) (p1 p2 p3 : IVec2) : List IVec2 :=
  let s1 : Rat := ((p3.x - p1.x : Int) : Rat) / ((p3.y - p1.y : Int) : Rat)
  let s2 : Rat := ((p3.x - p2.x : Int) : Rat) / ((p3.y - p2.y : Int) : Rat)
  triScanDown w h ((p3.x : Int) : Rat) ((p3.x : Int) : Rat) s1 s2 p3.y (p3.y + 1 - p1.y).toNat

/-- `RainCore::fill_triangle`: three conditional swaps sorting the vertices
by y, then flat-bottom / flat-top dispatch, else split at `p4`. -/
def fillTrianglePts (w h : Nat) (q1 q2 q3 : IVec2) : List IVec2 :=
  let s1 := if q1.y > q2.y then (q2, q1) else (q1, q2)
  let s2 := if s1.1.y > q3.y then (q3, s1.1) else (s1.1, q3)
  let s3 := if s1.2.y > s2.2.y then (s2.2, s1.2) else (s1.2, s2.2)
  let p1 := s2.1
  let p2 := s3.1
  let p3 := s3.2
  if p2.y = p3.y then fillTriangleBottomPts w h p1 p2 p3
  else if p1.y = p2.y then fillTriangleTopPts w h p1 p2 p3
  else
    let p4 : IVec2 :=
      ⟨p1.x + ratRound ((((p2.y - p1.y : Int) : Rat) / ((p3.y - p1.y : Int) : Rat)) *
        ((p3.x - p1.x : Int) : Rat)), p2.y⟩
    fillTriangleBottomPts w h p1 p2 p4 ++ fillTriangleTopPts w h p2 p4 p3

/-- Folding a trace of plotted coordinates into the render target through
`set_pixel`, in call order: this is how every rasterizer routine writes. -/
def applyPts (t : RenderTarget) (ps : List IVec2) (color : Color) : RenderTarget :=
  ps.foldl (fun acc p => acc.set_pixel p.x p.y color) t

/-- State-level `RainCore::draw_circle` (the engine's screen bounds equal the
render target's dimensions, both being set from the same `init` arguments). -/
def draw_circle (t : RenderTarget) (pos : IVec2) (r : Int) (color : Color) : RenderTarget :=
  applyPts t (drawCirclePts pos r) color

/-- State-level `RainCore::fill_circle`. -/
def fill_circle (t : RenderTarget) (pos : IVec2) (r : Int) (color : Color) : RenderTarget :=
  applyPts t (fillCirclePts t.width t.height pos r) color

/-- Per-tick responses of the host-window collaborator (minifb), which is
external to the core: the measured elapsed time for the tick, whether the
window is still open, and whether escape is held down.  The elapsed `f32`
seconds are modelled by `Rat` (the loop only ever adds, subtracts 1 and
compares against 1, and no claim depends on rounding of the timer). -/
structure TickEnv where
  elapsed : Rat
  isOpen : Bool
  escDown : Bool

/-- The engine-state fields `RainCore::run` reads and writes: the
`exit_on_esc` option and the mutable `active` flag, FPS timer and frame
counter.  (The render target and window handle are the excluded
collaborators; drawing does not influence the loop control.) -/
structure EngineState where
  exit_on_esc : Bool
  active : Bool
  frame_timer : Rat
  frame_count : Nat

/-- The `RainApp` trait: user hooks over an application state `σ`.
`on_update` receives the engine state mutably, so it can call `exit()`
(i.e. return the state with `active := false`). -/
structure RainApp (σ : Type) where
  on_start : σ → σ
  on_update : σ → EngineState → σ × EngineState
  on_exit : σ → σ

/-- Observable events of one run, in order: the start hook, then per tick
the update callback, the buffer present, an optional FPS title
reset, and the termination checks; finally the teardown hook. -/
inductive FrameEvent where
  | start : FrameEvent
  | update : FrameEvent
  | present : FrameEvent
  | fpsReset : FrameEvent
  | checks : FrameEvent
  | exitCb : FrameEvent
deriving DecidableEq, Repr

/-- One tick of the `while self.active` loop in `RainCore::run`, in source
order: invoke `on_update` (which may mutate the engine state), present the
buffer, accumulate the frame timer and counter, on `timer >= 1` subtract 1
(carrying the remainder) and reset the counter after the title update,
then clear `active` if the window closed or (with `exit_on_esc`) escape is
down.  Returns the new states and the tick's event list. -/
def tick {σ : Type} (env : TickEnv) (app : RainApp σ) (s : σ) (st : EngineState) :
    σ × EngineState × List FrameEvent :=
  match app.on_update s st with
  | (s', st') =>
    let ft := st'.frame_timer + env.elapsed
    let fc := st'.frame_count + 1
    let ft2 := if ft ≥ 1 then ft - 1 else ft
    let fc2 := if ft ≥ 1 then 0 else fc
    let act1 := if ¬ env.isOpen then false else st'.active
    let act2 := if st'.exit_on_esc && env.escDown then false else act1
    (s', { st' with frame_timer := ft2, frame_count := fc2, active := act2 },
      [FrameEvent.update, FrameEvent.present] ++
        (if ft ≥ 1 then [FrameEvent.fpsReset] else []) ++ [FrameEvent.checks])

/-- The `while self.active` loop, fuel-indexed (the real loop need not
terminate; `none` means the fuel ran out before the loop exited, and no
theorem below says anything about such runs).  On exit it invokes
`on_exit` exactly where the source does, after the loop. -/
def runLoop {σ : Type} (env : Nat → TickEnv) (app : RainApp σ) :
    Nat → Nat → σ → EngineState → Option (σ × List FrameEvent)
  | 0, _, _, _ => none
  | fuel + 1, k, s, st =>
    if st.active then
      match tick (env k) app s st with
      | (s', st', evs) =>
        match runLoop env app fuel (k + 1) s' st' with
        | none => none
        | some (sf, tr) => some (sf, evs ++ tr)
    else some (app.on_exit s, [FrameEvent.exitCb])

/-- `RainCore::run`: `on_start`, then the loop, then `on_exit`. -/
def run {σ : Type} (fuel : Nat) (env : Nat → TickEnv) (app : RainApp σ) (s : σ)
    (st : EngineState) : Option (σ × List FrameEvent) :=
  match runLoop env app fuel 0 (app.on_start s) st with
  | none => none
  | some (sf, tr) => some (sf, FrameEvent.start :: tr)

/-- The engine-state fields as set up by `RainCore::init`: `active = true`,
`frame_timer = 1.0`, `frame_count = 0`. -/
def initEngineState (exit_on_esc : Bool) : EngineState :=
  { exit_on_esc := exit_on_esc, active := true, frame_timer := 1, frame_count := 0 }

-- ### Arithmetic helper lemmas

theorem lor_eq_add : ∀ (k x y : Nat), x % 2 ^ k = 0 → y < 2 ^ k → x ||| y = x + y := by
  intro k
  induction k with
  | zero =>
    intro x y _ hy
    have hy0 : y = 0 := by simpa using hy
    subst hy0
    simp
  | succ k ih =>
    intro x y hx hy
    have h2 : (2 : Nat) ∣ 2 ^ (k + 1) := dvd_pow_self 2 (Nat.succ_ne_zero k)
    have hx2 : x % 2 = 0 := by
      have := Nat.mod_mod_of_dvd x h2
      omega
    have hxdvd : 2 ^ (k + 1) ∣ x := Nat.dvd_of_mod_eq_zero hx
    obtain ⟨m, hm⟩ := hxdvd
    have hxdiv : x / 2 = 2 ^ k * m := by
      subst hm
      rw [pow_succ]
      rw [Nat.mul_comm (2 ^ k) 2, Nat.mul_assoc]
      exact Nat.mul_div_cancel_left _ (by decide)
    have hxdmod : x / 2 % 2 ^ k = 0 := by
      rw [hxdiv]
      exact Nat.mul_mod_right _ _
    have hydiv : y / 2 < 2 ^ k := by
      have hpow : 2 ^ (k + 1) = 2 * 2 ^ k := by rw [pow_succ]; ring
      omega
    have hih := ih (x / 2) (y / 2) hxdmod hydiv
    have hdm : (x ||| y) = 2 * ((x ||| y) / 2) + (x ||| y) % 2 := by omega
    have hdiv2 : (x ||| y) / 2 = x / 2 ||| y / 2 := Nat.or_div_two
    have hmod2 : (x ||| y) % 2 = y % 2 := by
      rcases Nat.mod_two_eq_zero_or_one y with hy2 | hy2
      · have hne : ¬((x ||| y) % 2 = 1) := by
          rw [Nat.or_mod_two_eq_one]
          omega
        omega
      · have : (x ||| y) % 2 = 1 := by
          rw [Nat.or_mod_two_eq_one]
          omega
        omega
    rw [hdm, hdiv2, hih, hmod2]
    omega

/-- The packed word, written in plain place-value arithmetic. -/
theorem colorToU32_eq_add (c : Color) :
    colorToU32 c = c.a.val * 2 ^ 24 + c.r.val * 2 ^ 16 + c.g.val * 2 ^ 8 + c.b.val := by
  have ha := c.a.isLt
  have hr := c.r.isLt
  have hg := c.g.isLt
  have hb := c.b.isLt
  unfold colorToU32
  rw [Nat.shiftLeft_eq, Nat.shiftLeft_eq, Nat.shiftLeft_eq]
  have h1 : c.a.val * 2 ^ 24 ||| c.r.val * 2 ^ 16 = c.a.val * 2 ^ 24 + c.r.val * 2 ^ 16 :=
    lor_eq_add 24 _ _ (by omega) (by omega)
  rw [h1]
  have h2 : c.a.val * 2 ^ 24 + c.r.val * 2 ^ 16 ||| c.g.val * 2 ^ 8 =
      c.a.val * 2 ^ 24 + c.r.val * 2 ^ 16 + c.g.val * 2 ^ 8 :=
    lor_eq_add 16 _ _ (by omega) (by omega)
  rw [h2]
  exact lor_eq_add 8 _ _ (by omega) (by omega)

/-- Unpacking inverts packing on every color. -/
theorem colorFromU32_colorToU32 (c : Color) : colorFromU32 (colorToU32 c) = c := by
  have ha := c.a.isLt
  have hr := c.r.isLt
  have hg := c.g.isLt
  have hb := c.b.isLt
  rw [colorToU32_eq_add]
  unfold colorFromU32
  cases c with
  | mk r g b a =>
    simp only at ha hr hg hb ⊢
    congr 1 <;> apply Fin.ext <;>
      simp only [Nat.shiftRight_eq_div_pow] <;> omega

/-- Packing inverts unpacking on every 32-bit word. -/
theorem colorToU32_colorFromU32 (n : Nat) (hn : n < 2 ^ 32) :
    colorToU32 (colorFromU32 n) = n := by
  rw [colorToU32_eq_add]
  unfold colorFromU32
  simp only [Nat.shiftRight_eq_div_pow]
  omega

-- ### List helper lemmas

theorem getD_set_self : ∀ (l : List Nat) (i : Nat) (o d : Nat), i < l.length →
    (l.set i o).getD i d = o := by
  intro l
  induction l with
  | nil => intro i o d h; simp at h
  | cons hd tl ih =>
    intro i o d h
    cases i with
    | zero => rfl
    | succ j =>
      simp only [List.set]
      have : j < tl.length := by simpa using h
      simpa [List.getD] using ih j o d this

theorem getD_set_ne : ∀ (l : List Nat) (i j : Nat) (o d : Nat), i ≠ j →
    (l.set i o).getD j d = l.getD j d := by
  intro l
  induction l with
  | nil => intro i j o d _; simp [List.set]
  | cons hd tl ih =>
    intro i j o d hij
    cases i with
    | zero =>
      cases j with
      | zero => exact absurd rfl hij
      | succ j' => rfl
    | succ i' =>
      cases j with
      | zero => rfl
      | succ j' =>
        simp only [List.set]
        have : i' ≠ j' := by omega
        simpa [List.getD] using ih i' j' o d this

theorem index_bound {x y w h : Nat} (hx : x < w) (hy : y < h) : x + y * w < w * h := by
  have h1 : x + y * w < (y + 1) * w := by
    have : (y + 1) * w = y * w + w := by ring
    omega
  have h2 : (y + 1) * w ≤ h * w := Nat.mul_le_mul_right w (by omega)
  have h3 : h * w = w * h := Nat.mul_comm h w
  omega


-- ### Evaluation lemmas for the axis-aligned draw_line branches

theorem drawLinePts_vertical (w h : Nat) (x ya yb : Int) :
    drawLinePts w h ⟨x, ya⟩ ⟨x, yb⟩ =
      (List.range ((if yb < ya then ya else yb) - (if yb < ya then yb else ya)).toNat).map
        (fun (i : Nat) => ⟨x, (if yb < ya then yb else ya) + (i : Int)⟩) := by
  unfold drawLinePts
  rw [dif_pos (by simp)]

theorem drawLinePts_horizontal (w h : Nat) (xa xb y : Int) (hne : xa ≠ xb) :
    drawLinePts w h ⟨xa, y⟩ ⟨xb, y⟩ =
      (List.range ((if xb < xa then xa else xb) - (if xb < xa then xb else xa)).toNat).map
        (fun (i : Nat) => ⟨(if xb < xa then xb else xa) + (i : Int), y⟩) := by
  unfold drawLinePts
  rw [dif_neg (by simpa [abs_eq_zero, sub_eq_zero] using fun hc => hne hc.symm)]
  rw [dif_pos (by simp)]

-- ### Claim theorems

/-- C2: packing and unpacking are exact inverses in both directions: for
every `Color` (channels are 8-bit by type), unpacking the packed word
`(a<<24)|(r<<16)|(g<<8)|b` reproduces the color exactly, and for every
32-bit value `n`, packing the color unpacked from `n` yields `n` again. -/
theorem pack_unpack_roundtrip :
    (∀ c : Color, colorFromU32 (colorToU32 c) = c) ∧
    (∀ n : Nat, n < 2 ^ 32 → colorToU32 (colorFromU32 n) = n) :=
  ⟨colorFromU32_colorToU32, colorToU32_colorFromU32⟩

/-- Witness for C2 at the spec's concrete values: `{r:124,g:58,b:231,a:255}`
round-trips, and so does the word `0x237CFF7E`. -/
theorem pack_unpack_roundtrip_witness :
    colorFromU32 (colorToU32 ⟨124, 58, 231, 255⟩) = ⟨124, 58, 231, 255⟩ ∧
    (0x237CFF7E : Nat) < 2 ^ 32 ∧ colorToU32 (colorFromU32 0x237CFF7E) = 0x237CFF7E :=
  ⟨pack_unpack_roundtrip.1 ⟨124, 58, 231, 255⟩, by norm_num,
    pack_unpack_roundtrip.2 0x237CFF7E (by norm_num)⟩

/-- C1: on a render target whose storage has the constructed length
`width * height`, an in-bounds `set_pixel` followed by `get_pixel` at the
same coordinates returns exactly the written color; out of bounds,
`get_pixel` returns `none` regardless of the buffer contents and
`set_pixel` leaves the target untouched. -/
theorem set_get_bounds (t : RenderTarget) (hlen : t.data.length = t.width * t.height)
    (x y : Int) (c : Color) :
    ((0 ≤ x ∧ x < (t.width : Int) ∧ 0 ≤ y ∧ y < (t.height : Int)) →
      (t.set_pixel x y c).get_pixel x y = some c) ∧
    (¬(0 ≤ x ∧ x < (t.width : Int) ∧ 0 ≤ y ∧ y < (t.height : Int)) →
      t.get_pixel x y = none ∧ t.set_pixel x y c = t) := by
  constructor
  · rintro ⟨hx0, hxw, hy0, hyh⟩
    obtain ⟨a, rfl⟩ : ∃ a : Nat, x = (a : Int) := ⟨x.toNat, (Int.toNat_of_nonneg hx0).symm⟩
    obtain ⟨b, rfl⟩ : ∃ b : Nat, y = (b : Int) := ⟨y.toNat, (Int.toNat_of_nonneg hy0).symm⟩
    have haw : a < t.width := by exact_mod_cast hxw
    have hbh : b < t.height := by exact_mod_cast hyh
    have hin : 0 ≤ ((a : Nat) : Int) ∧ ((a : Nat) : Int) < (t.width : Int) ∧
        0 ≤ ((b : Nat) : Int) ∧ ((b : Nat) : Int) < (t.height : Int) := ⟨hx0, hxw, hy0, hyh⟩
    have hset : t.set_pixel (a : Int) (b : Int) c =
        { t with data := (t.data.set (((a : Nat) : Int) + ((b : Nat) : Int) * (t.width : Int)).toNat (colorToU32 c)) } := by
      unfold RenderTarget.set_pixel
      rw [if_pos hin]
    rw [hset]
    show (if 0 ≤ ((a : Nat) : Int) ∧ ((a : Nat) : Int) < (t.width : Int) ∧
        0 ≤ ((b : Nat) : Int) ∧ ((b : Nat) : Int) < (t.height : Int) then
        some (colorFromU32 ((t.data.set (((a : Nat) : Int) + ((b : Nat) : Int) * (t.width : Int)).toNat
          (colorToU32 c)).getD (((a : Nat) : Int).toNat + ((b : Nat) : Int).toNat * t.width) 0))
      else none) = some c
    rw [if_pos hin]
    have hidx : (((a : Nat) : Int) + ((b : Nat) : Int) * (t.width : Int)).toNat = a + b * t.width := by
      have hcast : (((a : Nat) : Int) + ((b : Nat) : Int) * (t.width : Int)) =
          ((a + b * t.width : Nat) : Int) := by
        push_cast
        ring
      rw [hcast, Int.toNat_natCast]
    have hta : (((a : Nat) : Int)).toNat = a := Int.toNat_natCast a
    have htb : (((b : Nat) : Int)).toNat = b := Int.toNat_natCast b
    rw [hidx, hta, htb]
    rw [getD_set_self]
    · rw [colorFromU32_colorToU32]
    · rw [hlen]
      exact index_bound haw hbh
  · intro hout
    unfold RenderTarget.get_pixel RenderTarget.set_pixel
    rw [if_neg hout, if_neg hout]
    exact ⟨rfl, rfl⟩

/-- Witness for C1 on a fresh 10×10 target: in bounds at (5,3) the written
white pixel reads back; at (100,100) `get_pixel` is empty. -/
theorem set_get_bounds_witness :
    (RenderTarget.new 10 10).data.length = (RenderTarget.new 10 10).width * (RenderTarget.new 10 10).height ∧
    ((RenderTarget.new 10 10).set_pixel 5 3 WHITE).get_pixel 5 3 = some WHITE ∧
    (RenderTarget.new 10 10).get_pixel 100 100 = none :=
  ⟨by decide,
    (set_get_bounds (RenderTarget.new 10 10) (by decide) 5 3 WHITE).1 (by decide),
    ((set_get_bounds (RenderTarget.new 10 10) (by decide) 100 100 WHITE).2 (by decide)).1⟩

/-- C10: an in-bounds `set_pixel` changes only the storage element at index
`x + y * width`: width, height, the storage length, and every other element
are unchanged; an out-of-bounds `set_pixel` leaves the whole state exactly
as it was.  Length preservation in both cases means the invariant
`data.length = width * height` survives every `set_pixel` call. -/
theorem set_pixel_frame (t : RenderTarget) (x y : Int) (c : Color) :
    ((0 ≤ x ∧ x < (t.width : Int) ∧ 0 ≤ y ∧ y < (t.height : Int)) →
      (t.set_pixel x y c).width = t.width ∧
      (t.set_pixel x y c).height = t.height ∧
      (t.set_pixel x y c).data.length = t.data.length ∧
      (∀ j : Nat, j ≠ x.toNat + y.toNat * t.width →
        (t.set_pixel x y c).data.getD j 0 = t.data.getD j 0)) ∧
    (¬(0 ≤ x ∧ x < (t.width : Int) ∧ 0 ≤ y ∧ y < (t.height : Int)) →
      t.set_pixel x y c = t) := by
  constructor
  · rintro ⟨hx0, hxw, hy0, hyh⟩
    obtain ⟨a, rfl⟩ : ∃ a : Nat, x = (a : Int) := ⟨x.toNat, (Int.toNat_of_nonneg hx0).symm⟩
    obtain ⟨b, rfl⟩ : ∃ b : Nat, y = (b : Int) := ⟨y.toNat, (Int.toNat_of_nonneg hy0).symm⟩
    have hin : 0 ≤ ((a : Nat) : Int) ∧ ((a : Nat) : Int) < (t.width : Int) ∧
        0 ≤ ((b : Nat) : Int) ∧ ((b : Nat) : Int) < (t.height : Int) := ⟨hx0, hxw, hy0, hyh⟩
    have hset : t.set_pixel (a : Int) (b : Int) c =
        { t with data := (t.data.set (((a : Nat) : Int) + ((b : Nat) : Int) * (t.width : Int)).toNat (colorToU32 c)) } := by
      unfold RenderTarget.set_pixel
      rw [if_pos hin]
    rw [hset]
    have hidx : (((a : Nat) : Int) + ((b : Nat) : Int) * (t.width : Int)).toNat = a + b * t.width := by
      have hcast : (((a : Nat) : Int) + ((b : Nat) : Int) * (t.width : Int)) =
          ((a + b * t.width : Nat) : Int) := by
        push_cast
        ring
      rw [hcast, Int.toNat_natCast]
    refine ⟨rfl, rfl, by simp, ?_⟩
    intro j hj
    show (t.data.set (((a : Nat) : Int) + ((b : Nat) : Int) * (t.width : Int)).toNat
      (colorToU32 c)).getD j 0 = t.data.getD j 0
    rw [hidx]
    apply getD_set_ne
    intro hcontra
    apply hj
    rw [← hcontra, Int.toNat_natCast, Int.toNat_natCast]
  · intro hout
    unfold RenderTarget.set_pixel
    rw [if_neg hout]

/-- Witness for C10 on a fresh 10×10 target at (5,3): dimensions and length
preserved, a distinct index unchanged, and an out-of-bounds write at
(100,100) is the identity. -/
theorem set_pixel_frame_witness :
    ((RenderTarget.new 10 10).set_pixel 5 3 WHITE).width = (RenderTarget.new 10 10).width ∧
    ((RenderTarget.new 10 10).set_pixel 5 3 WHITE).data.getD 0 0 = (RenderTarget.new 10 10).data.getD 0 0 ∧
    (RenderTarget.new 10 10).set_pixel 100 100 WHITE = RenderTarget.new 10 10 :=
  ⟨((set_pixel_frame (RenderTarget.new 10 10) 5 3 WHITE).1 (by decide)).1,
    ((set_pixel_frame (RenderTarget.new 10 10) 5 3 WHITE).1 (by decide)).2.2.2 0 (by decide),
    (set_pixel_frame (RenderTarget.new 10 10) 100 100 WHITE).2 (by decide)⟩

/-- C7: a vertical segment (`p1.x = p2.x`) writes exactly the pixels
`(p1.x, y)` for `y` from the smaller endpoint up to but excluding the larger
(half-open); a horizontal segment writes `(x, p1.y)` for `x` in the
corresponding half-open range; a zero-length segment writes no pixels.
(These are the coordinates handed to `set_pixel`; each individual write is
still bounds-clipped there.) -/
theorem draw_line_axis_aligned (w h : Nat) (p1 p2 : IVec2) :
    (p1.x = p2.x → drawLinePts w h p1 p2 =
      (List.range (max p1.y p2.y - min p1.y p2.y).toNat).map
        (fun (i : Nat) => ⟨p1.x, min p1.y p2.y + (i : Int)⟩)) ∧
    (p1.y = p2.y → drawLinePts w h p1 p2 =
      (List.range (max p1.x p2.x - min p1.x p2.x).toNat).map
        (fun (i : Nat) => ⟨min p1.x p2.x + (i : Int), p1.y⟩)) ∧
    (p1 = p2 → drawLinePts w h p1 p2 = []) := by
  obtain ⟨xa, ya⟩ := p1
  obtain ⟨xb, yb⟩ := p2
  refine ⟨?_, ?_, ?_⟩
  · intro hx
    dsimp only at hx ⊢
    subst hx
    rw [drawLinePts_vertical]
    have hmin : (if yb < ya then yb else ya) = min ya yb := by
      rw [min_def]
      split_ifs <;> omega
    have hmax : (if yb < ya then ya else yb) = max ya yb := by
      rw [max_def]
      split_ifs <;> omega
    rw [hmin, hmax]
  · intro hy
    dsimp only at hy ⊢
    subst hy
    by_cases hxx : xa = xb
    · subst hxx
      rw [drawLinePts_vertical]
      simp
    · rw [drawLinePts_horizontal w h xa xb ya hxx]
      have hmin : (if xb < xa then xb else xa) = min xa xb := by
        rw [min_def]
        split_ifs <;> omega
      have hmax : (if xb < xa then xa else xb) = max xa xb := by
        rw [max_def]
        split_ifs <;> omega
      rw [hmin, hmax]
  · intro hpq
    injection hpq with h1 h2
    subst h1
    subst h2
    rw [drawLinePts_vertical]
    simp

/-- Witness for C7: the vertical segment (3,7)–(3,2) writes exactly
y = 2,3,4,5,6 at x = 3 (the larger endpoint y = 7 excluded). -/
theorem draw_line_axis_aligned_witness :
    (⟨3, 7⟩ : IVec2).x = (⟨3, 2⟩ : IVec2).x ∧
    drawLinePts 10 10 ⟨3, 7⟩ ⟨3, 2⟩ = [⟨3, 2⟩, ⟨3, 3⟩, ⟨3, 4⟩, ⟨3, 5⟩, ⟨3, 6⟩] :=
  ⟨rfl, by
    have hth := (draw_line_axis_aligned 10 10 ⟨3, 7⟩ ⟨3, 2⟩).1 rfl
    rw [hth]
    decide⟩

/-- C8: for every center, color, and radius `r ≤ 0`, both `draw_circle` and
`fill_circle` plot no pixels and leave the render target exactly as it was. -/
theorem circle_nonpositive_radius_noop (t : RenderTarget) (pos : IVec2) (r : Int)
    (color : Color) (hr : r ≤ 0) :
    drawCirclePts pos r = [] ∧ fillCirclePts t.width t.height pos r = [] ∧
    draw_circle t pos r color = t ∧ fill_circle t pos r color = t := by
  have h1 : drawCirclePts pos r = [] := by
    unfold drawCirclePts
    rw [if_pos hr]
  have h2 : fillCirclePts t.width t.height pos r = [] := by
    unfold fillCirclePts
    rw [if_pos hr]
  refine ⟨h1, h2, ?_, ?_⟩
  · unfold draw_circle
    rw [h1]
    rfl
  · unfold fill_circle
    rw [h2]
    rfl

/-- Witness for C8 at radius 0 on a fresh 4×4 target. -/
theorem circle_nonpositive_radius_noop_witness :
    (0 : Int) ≤ 0 ∧ drawCirclePts ⟨1, 1⟩ 0 = [] ∧
    fill_circle (RenderTarget.new 4 4) ⟨1, 1⟩ 0 WHITE = RenderTarget.new 4 4 :=
  ⟨le_refl 0,
    (circle_nonpositive_radius_noop (RenderTarget.new 4 4) ⟨1, 1⟩ 0 WHITE (le_refl 0)).1,
    (circle_nonpositive_radius_noop (RenderTarget.new 4 4) ⟨1, 1⟩ 0 WHITE (le_refl 0)).2.2.2⟩

/-- C4 counterexample: `draw_rect((10,10),(5,5))` writes only 19 distinct
pixels, not 20: the bottom-right perimeter corner (15,15) is never written,
because every `draw_line` edge is a half-open range that excludes its
larger endpoint. -/
theorem draw_rect_missing_corner :
    (drawRectPts 100 100 ⟨10, 10⟩ ⟨5, 5⟩).toFinset.card = 19 ∧
    (⟨15, 15⟩ : IVec2) ∉ drawRectPts 100 100 ⟨10, 10⟩ ⟨5, 5⟩ := by
  decide

/-- C4 amended: the set of distinct pixels written by
`draw_rect((10,10),(5,5))` is exactly the rectangle outline's perimeter
minus its bottom-right corner (15,15) — 19 pixels. -/
theorem draw_rect_outline_pixels :
    (drawRectPts 100 100 ⟨10, 10⟩ ⟨5, 5⟩).toFinset =
      (((Finset.range 6) ×ˢ (Finset.range 6)).filter
        (fun q => (q.1 = 0 ∨ q.1 = 5 ∨ q.2 = 0 ∨ q.2 = 5) ∧ ¬(q.1 = 5 ∧ q.2 = 5))).image
        (fun q => (⟨10 + (q.1 : Int), 10 + (q.2 : Int)⟩ : IVec2)) ∧
    (drawRectPts 100 100 ⟨10, 10⟩ ⟨5, 5⟩).toFinset.card = 19 := by
  decide

/-- Evaluation of `draw_line` on a possibly degenerate horizontal segment
drawn right-to-left (`b ≤ a`): the half-open pixel range from `b` up to
but excluding `a`. -/
theorem drawLinePts_horizontal_le (w h : Nat) (a b y : Int) (hba : b ≤ a) :
    drawLinePts w h ⟨a, y⟩ ⟨b, y⟩ =
      (List.range (a - b).toNat).map (fun (i : Nat) => ⟨b + (i : Int), y⟩) := by
  rcases eq_or_lt_of_le hba with heq | hlt
  · subst heq
    rw [drawLinePts_vertical]
    simp
  · rw [drawLinePts_horizontal w h a b y (by omega)]
    rw [if_pos hlt, if_pos hlt]

/-- The flat-bottom scanline loop, scanline by scanline: iterating the
additive accumulator updates `n` times yields, for the `k`-th scanline, the
`draw_line` segment between the rounded accumulator values
`a1 + k·s1` and `a2 + k·s2` at row `y + k`. -/
theorem triScanUp_eq (w h : Nat) (s1 s2 : Rat) :
    ∀ (n : Nat) (a1 a2 : Rat) (y : Int),
      triScanUp w h a1 a2 s1 s2 y n =
        (List.range n).flatMap (fun (k : Nat) =>
          drawLinePts w h ⟨ratRound (a1 + (k : Rat) * s1), y + (k : Int)⟩
            ⟨ratRound (a2 + (k : Rat) * s2), y + (k : Int)⟩) := by
  intro n
  induction n with
  | zero =>
    intro a1 a2 y
    simp [triScanUp]
  | succ n ih =>
    intro a1 a2 y
    rw [triScanUp]
    rw [List.range_succ_eq_map, List.flatMap_cons, List.flatMap_map]
    congr 1
    · norm_num
    · rw [ih (a1 + s1) (a2 + s2) (y + 1)]
      apply List.flatMap_congr
      intro k _
      have e1 : a1 + s1 + (k : Rat) * s1 = a1 + ((k + 1 : Nat) : Rat) * s1 := by
        push_cast
        ring
      have e2 : a2 + s2 + (k : Rat) * s2 = a2 + ((k + 1 : Nat) : Rat) * s2 := by
        push_cast
        ring
      have e3 : y + 1 + (k : Int) = y + ((k + 1 : Nat) : Int) := by
        push_cast
        ring
      simp only [Nat.succ_eq_add_one]
      rw [e1, e2, e3]

set_option maxRecDepth 4000 in
/-- Evaluating the vertex sort and flat-bottom dispatch of
`fill_triangle((25,100),(75,100),(50,0))`. -/
theorem fillTriangle_spec_disp :
    fillTrianglePts 100 110 ⟨25, 100⟩ ⟨75, 100⟩ ⟨50, 0⟩ =
      fillTriangleBottomPts 100 110 ⟨50, 0⟩ ⟨75, 100⟩ ⟨25, 100⟩ := by
  with_unfolding_all rfl

set_option maxRecDepth 4000 in
/-- Unfolding the flat-bottom filler at the concrete vertices: slopes
`25/100` and `-25/100`, both accumulators starting at `x = 50`, 101
scanlines from `y = 0`. -/
theorem fillTriangle_spec_scan :
    fillTriangleBottomPts 100 110 ⟨50, 0⟩ ⟨75, 100⟩ ⟨25, 100⟩ =
      triScanUp 100 110 ((50 : Int) : Rat) ((50 : Int) : Rat)
        (((25 : Int) : Rat) / ((100 : Int) : Rat)) (((-25 : Int) : Rat) / ((100 : Int) : Rat))
        0 101 := by
  with_unfolding_all rfl

set_option maxRecDepth 8000 in
/-- The claim C3 trace, fully characterised: one contiguous half-open span
`[round(50 - y/4), round(50 + y/4))` per scanline `y = 0..100`, in order. -/
theorem fillTriangle_spec_spans :
    fillTrianglePts 100 110 ⟨25, 100⟩ ⟨75, 100⟩ ⟨50, 0⟩ =
      (List.range 101).flatMap (fun (n : Nat) =>
        (List.range ((ratRound (50 + (n : Rat) / 4) - ratRound (50 - (n : Rat) / 4)).toNat)).map
          (fun (i : Nat) => ⟨ratRound (50 - (n : Rat) / 4) + (i : Int), (n : Int)⟩)) := by
  rw [fillTriangle_spec_disp, fillTriangle_spec_scan, triScanUp_eq]
  exact List.flatMap_congr (by with_unfolding_all decide)

set_option maxRecDepth 8000 in
/-- C3 counterexample: `fill_triangle((25,100),(75,100),(50,0))` writes ZERO
pixels on the apex scanline y = 0, not exactly one: the scanline's
`draw_line` call degenerates to the zero-length segment (50,0)–(50,0),
whose half-open range is empty. -/
theorem fill_triangle_apex_scanline_empty :
    ((fillTrianglePts 100 110 ⟨25, 100⟩ ⟨75, 100⟩ ⟨50, 0⟩).filter
      (fun p => decide (p.y = 0))).length = 0 := by
  rw [fillTriangle_spec_spans]
  rw [List.filter_flatMap]
  have hnil : ∀ x ∈ List.range 101,
      ((List.range ((ratRound (50 + (x : Rat) / 4) - ratRound (50 - (x : Rat) / 4)).toNat)).map
        (fun (i : Nat) => (⟨ratRound (50 - (x : Rat) / 4) + (i : Int), (x : Int)⟩ : IVec2))).filter
        (fun p => decide (p.y = 0)) = ([] : List IVec2) := by
    with_unfolding_all decide
  rw [List.flatMap_congr hnil]
  have hflat : (List.range 101).flatMap (fun _ => ([] : List IVec2)) = [] :=
    List.flatMap_eq_nil_iff.mpr (fun _ _ => rfl)
  rw [hflat]
  rfl

/-- C3 amended: the fill writes, for each scanline y = 0..100 in order, the
single contiguous half-open span `[round(50 - y/4), round(50 + y/4))`; the
spans at y = 0 and y = 1 are empty (the apex pixel is never written), y = 2
is the first scanline and carries exactly one pixel, and y = 100 carries the
50 base pixels x = 25..74. -/
theorem fill_triangle_scanline_spans :
    (fillTrianglePts 100 110 ⟨25, 100⟩ ⟨75, 100⟩ ⟨50, 0⟩ =
      (List.range 101).flatMap (fun (n : Nat) =>
        (List.range ((ratRound (50 + (n : Rat) / 4) - ratRound (50 - (n : Rat) / 4)).toNat)).map
          (fun (i : Nat) => ⟨ratRound (50 - (n : Rat) / 4) + (i : Int), (n : Int)⟩))) ∧
    (ratRound (50 + (0 : Rat) / 4) - ratRound (50 - (0 : Rat) / 4)).toNat = 0 ∧
    (ratRound (50 + (1 : Rat) / 4) - ratRound (50 - (1 : Rat) / 4)).toNat = 0 ∧
    (ratRound (50 + (2 : Rat) / 4) - ratRound (50 - (2 : Rat) / 4)).toNat = 1 ∧
    ratRound (50 - (100 : Rat) / 4) = 25 ∧
    (ratRound (50 + (100 : Rat) / 4) - ratRound (50 - (100 : Rat) / 4)).toNat = 50 :=
  ⟨fillTriangle_spec_spans, by with_unfolding_all decide, by with_unfolding_all decide,
    by with_unfolding_all decide, by with_unfolding_all decide, by with_unfolding_all decide⟩

/-- The `fill_circle` loop trace is the concatenation, chord by chord, of
the horizontal `draw_line` segments described by `fillCircleChordsLoop`. -/
theorem fillCircleLoopPts_eq_chords (w h : Nat) (cx cy : Int) :
    ∀ (m : Nat) (x0 y0 d : Int), (y0 + 1 - x0).toNat ≤ m →
      fillCircleLoopPts w h cx cy x0 y0 d =
        (fillCircleChordsLoop cx cy x0 y0 d).flatMap
          (fun c => drawLinePts w h ⟨cx - c.1, c.2⟩ ⟨cx + c.1, c.2⟩) := by
  intro m
  induction m with
  | zero =>
    intro x0 y0 d hm
    have hxy : ¬ x0 ≤ y0 := by omega
    rw [fillCircleLoopPts, fillCircleChordsLoop, if_neg hxy, if_neg hxy]
    rfl
  | succ m ih =>
    intro x0 y0 d hm
    rw [fillCircleLoopPts, fillCircleChordsLoop]
    by_cases hxy : x0 ≤ y0
    · rw [if_pos hxy, if_pos hxy]
      rw [List.flatMap_append]
      by_cases hd : d < 0
      · rw [if_pos hd, if_pos hd, ih (x0 + 1) y0 _ (by omega)]
        simp [List.flatMap_cons, List.append_assoc]
      · rw [if_neg hd, if_neg hd, ih (x0 + 1) (y0 - 1) _ (by omega)]
        simp [List.flatMap_cons, List.append_assoc]
    · rw [if_neg hxy, if_neg hxy]
      rfl

/-- Every chord recorded by the loop has a nonnegative half-width, provided
the loop starts at a nonnegative `x0`. -/
theorem fillCircleChordsLoop_halfwidth_nonneg (cx cy : Int) :
    ∀ (m : Nat) (x0 y0 d : Int), (y0 + 1 - x0).toNat ≤ m → 0 ≤ x0 →
      ∀ c ∈ fillCircleChordsLoop cx cy x0 y0 d, 0 ≤ c.1 := by
  intro m
  induction m with
  | zero =>
    intro x0 y0 d hm hx0 c hc
    have hxy : ¬ x0 ≤ y0 := by omega
    rw [fillCircleChordsLoop, if_neg hxy] at hc
    exact absurd hc (List.not_mem_nil c)
  | succ m ih =>
    intro x0 y0 d hm hx0 c hc
    rw [fillCircleChordsLoop] at hc
    by_cases hxy : x0 ≤ y0
    · rw [if_pos hxy] at hc
      rw [List.mem_append] at hc
      rcases hc with hc | hc
      · simp only [List.mem_cons, List.not_mem_nil, or_false] at hc
        rcases hc with rfl | rfl | rfl | rfl <;> dsimp only <;> omega
      · by_cases hd : d < 0
        · rw [if_pos hd] at hc
          exact ih (x0 + 1) y0 _ (by omega) (by omega) c hc
        · rw [if_neg hd] at hc
          exact ih (x0 + 1) (y0 - 1) _ (by omega) (by omega) c hc
    · rw [if_neg hxy] at hc
      exact absurd hc (List.not_mem_nil c)

/-- Pixels of one horizontal chord `(cx-k,Y)`–`(cx+k,Y)` with `k ≥ 0`: the
half-open centered interval `cx - k ≤ x < cx + k` on scanline `Y` (empty
for `k = 0`, where `draw_line` takes its degenerate vertical branch). -/
theorem mem_chordPts (w h : Nat) (cx k Y : Int) (hk : 0 ≤ k) (p : IVec2) :
    p ∈ drawLinePts w h ⟨cx - k, Y⟩ ⟨cx + k, Y⟩ ↔
      (cx - k ≤ p.x ∧ p.x < cx + k ∧ p.y = Y) := by
  rcases eq_or_lt_of_le hk with h0 | hpos
  · rw [← h0, sub_zero, add_zero]
    rw [drawLinePts_vertical]
    simp only [lt_self_iff_false, if_false, sub_self, Int.toNat_zero, List.range_zero,
      List.map_nil, List.not_mem_nil, false_iff]
    omega
  · rw [drawLinePts_horizontal w h (cx - k) (cx + k) Y (by omega)]
    rw [if_neg (by omega), if_neg (by omega)]
    simp only [List.mem_map, List.mem_range]
    constructor
    · rintro ⟨i, hi, rfl⟩
      dsimp only
      omega
    · rintro ⟨hlo, hhi, hy⟩
      refine ⟨(p.x - (cx - k)).toNat, by omega, ?_⟩
      cases p
      dsimp only at hlo hhi hy ⊢
      subst hy
      congr 1
      omega

/-- C5 amended: for every center and radius `r > 0`, the fill has no holes:
on every scanline, any pixel lying between two plotted pixels is itself
plotted (every chord is a half-open interval centered on `pos.x`, so the
union per scanline is one contiguous interval).  The extreme boundary
pixels of the disc, however, are not always plotted (see the
counterexample at r = 1). -/
theorem fill_circle_scanlines_contiguous (w h : Nat) (pos : IVec2) (r : Int) (hr : 0 < r)
    (x1 x2 x y : Int)
    (h1 : (⟨x1, y⟩ : IVec2) ∈ fillCirclePts w h pos r)
    (h2 : (⟨x2, y⟩ : IVec2) ∈ fillCirclePts w h pos r)
    (hx1 : x1 ≤ x) (hx2 : x ≤ x2) :
    (⟨x, y⟩ : IVec2) ∈ fillCirclePts w h pos r := by
  unfold fillCirclePts at h1 h2 ⊢
  rw [if_neg (by omega)] at h1 h2 ⊢
  rw [fillCircleLoopPts_eq_chords w h pos.x pos.y (r + 1).toNat 0 r (3 - 2 * r) (by omega)]
    at h1 h2 ⊢
  rw [List.mem_flatMap] at h1 h2
  obtain ⟨c1, hc1mem, hc1⟩ := h1
  obtain ⟨c2, hc2mem, hc2⟩ := h2
  have hk1 : 0 ≤ c1.1 :=
    fillCircleChordsLoop_halfwidth_nonneg pos.x pos.y (r + 1).toNat 0 r (3 - 2 * r)
      (by omega) (by omega) c1 hc1mem
  have hk2 : 0 ≤ c2.1 :=
    fillCircleChordsLoop_halfwidth_nonneg pos.x pos.y (r + 1).toNat 0 r (3 - 2 * r)
      (by omega) (by omega) c2 hc2mem
  rw [mem_chordPts w h pos.x c1.1 c1.2 hk1] at hc1
  rw [mem_chordPts w h pos.x c2.1 c2.2 hk2] at hc2
  rw [List.mem_flatMap]
  by_cases hcc : c1.1 ≤ c2.1
  · refine ⟨c2, hc2mem, ?_⟩
    rw [mem_chordPts w h pos.x c2.1 c2.2 hk2]
    dsimp only at hc1 hc2 ⊢
    omega
  · refine ⟨c1, hc1mem, ?_⟩
    rw [mem_chordPts w h pos.x c1.1 c1.2 hk1]
    dsimp only at hc1 hc2 ⊢
    omega

/-- Concrete evaluation: `fill_circle` at center (10,10) with radius 1 plots
only the two pixels (9,10) and (10,10) (each twice): the single loop
iteration draws two empty vertical chords at (10,9)/(10,11) and two copies
of the half-open horizontal chord `9 ≤ x < 11`. -/
theorem fillCirclePts_radius_one :
    fillCirclePts 100 100 ⟨10, 10⟩ 1 = [⟨9, 10⟩, ⟨10, 10⟩, ⟨9, 10⟩, ⟨10, 10⟩] := by
  have e1 : fillCirclePts 100 100 ⟨10, 10⟩ 1 = fillCircleLoopPts 100 100 10 10 0 1 1 := by
    with_unfolding_all rfl
  rw [e1]
  rw [fillCircleLoopPts]
  rw [if_pos (by norm_num), if_neg (by norm_num)]
  rw [fillCircleLoopPts]
  rw [if_neg (by norm_num)]
  with_unfolding_all decide

/-- C5 counterexample: at radius 1 (with the disc fully in bounds of a
100×100 buffer) the topmost pixel (10,9), the bottommost pixel (10,11), and
the rightmost pixel (11,10) of the disc are all left unwritten. -/
theorem fill_circle_extreme_pixels_missing :
    (0 : Int) < 1 ∧
    (⟨10, 9⟩ : IVec2) ∉ fillCirclePts 100 100 ⟨10, 10⟩ 1 ∧
    (⟨10, 11⟩ : IVec2) ∉ fillCirclePts 100 100 ⟨10, 10⟩ 1 ∧
    (⟨11, 10⟩ : IVec2) ∉ fillCirclePts 100 100 ⟨10, 10⟩ 1 := by
  refine ⟨by norm_num, ?_, ?_, ?_⟩ <;> rw [fillCirclePts_radius_one] <;> decide

/-- Witness for C5 (amended): the contiguity theorem applied at radius 1,
center (10,10): from the plotted pixels (9,10) and (10,10) it reproves
(10,10) plotted. -/
theorem fill_circle_scanlines_contiguous_witness :
    (0 : Int) < 1 ∧ (⟨9, 10⟩ : IVec2) ∈ fillCirclePts 100 100 ⟨10, 10⟩ 1 ∧
    (⟨10, 10⟩ : IVec2) ∈ fillCirclePts 100 100 ⟨10, 10⟩ 1 :=
  ⟨by norm_num,
    by rw [fillCirclePts_radius_one]; decide,
    fill_circle_scanlines_contiguous 100 100 ⟨10, 10⟩ 1 (by norm_num) 9 10 10 10
      (by rw [fillCirclePts_radius_one]; decide)
      (by rw [fillCirclePts_radius_one]; decide)
      (by norm_num) (by norm_num)⟩

theorem getLast?_cons_ne_nil {α : Type} (a : α) {l : List α} (h : l ≠ []) :
    (a :: l).getLast? = l.getLast? := by
  cases l with
  | nil => exact absurd rfl h
  | cons b t => exact List.getLast?_cons_cons

/-- The Bresenham loop always plots at least one point. -/
theorem bresLoop_ne_nil (w h : Nat) (x2 y2 dx dy : Int) (sxPos syPos : Bool)
    (hdx : 1 ≤ dx) (hdy : 1 ≤ dy) (x1 y1 err : Int) :
    bresLoop w h x2 y2 dx dy sxPos syPos hdx hdy x1 y1 err ≠ [] := by
  rw [bresLoop]
  exact List.cons_ne_nil _ _

/-- C6 amended: the general-case `draw_line` loop stops exactly on the
source's condition — target reached, or a coordinate below zero or
STRICTLY greater than the screen bound (`>`, not `>=`).  Formally: of all
the points the loop plots, every one except the last fails that condition
(in particular a point with x exactly equal to `width` does NOT stop the
loop), and the last plotted point satisfies it. -/
theorem bresLoop_stop (w h : Nat) (x2 y2 dx dy : Int) (sxPos syPos : Bool)
    (hdx : 1 ≤ dx) (hdy : 1 ≤ dy) :
    ∀ (m : Nat) (x1 y1 err : Int),
      ((if sxPos then (w : Int) + 1 - x1 else x1) +
        (if syPos then (h : Int) + 1 - y1 else y1) + 2).toNat ≤ m →
      (∃ p : IVec2,
        (bresLoop w h x2 y2 dx dy sxPos syPos hdx hdy x1 y1 err).getLast? = some p ∧
        ((p.x = x2 ∧ p.y = y2) ∨ p.x < 0 ∨ (w : Int) < p.x ∨ p.y < 0 ∨ (h : Int) < p.y)) ∧
      (∀ p ∈ (bresLoop w h x2 y2 dx dy sxPos syPos hdx hdy x1 y1 err).dropLast,
        ¬((p.x = x2 ∧ p.y = y2) ∨ p.x < 0 ∨ (w : Int) < p.x ∨ p.y < 0 ∨ (h : Int) < p.y)) := by
  intro m
  induction m with
  | zero =>
    intro x1 y1 err hm
    have hstop : (x1 = x2 ∧ y1 = y2) ∨ x1 < 0 ∨ (w : Int) < x1 ∨ y1 < 0 ∨ (h : Int) < y1 := by
      split_ifs at hm <;> omega
    rw [bresLoop, if_pos hstop]
    exact ⟨⟨⟨x1, y1⟩, rfl, hstop⟩, by simp⟩
  | succ m ih =>
    intro x1 y1 err hm
    by_cases hstop : (x1 = x2 ∧ y1 = y2) ∨ x1 < 0 ∨ (w : Int) < x1 ∨ y1 < 0 ∨ (h : Int) < y1
    · rw [bresLoop, if_pos hstop]
      exact ⟨⟨⟨x1, y1⟩, rfl, hstop⟩, by simp⟩
    · rw [bresLoop, if_neg hstop]
      dsimp only
      by_cases hc1 : -dx < err
      · simp only [if_pos hc1]
        by_cases hc2 : err - dy < dy
        · simp only [if_pos hc2]
          obtain ⟨⟨p, hlast, hpstop⟩, hdrop⟩ :=
            ih (x1 + (if sxPos then (1 : Int) else -1)) (y1 + (if syPos then (1 : Int) else -1))
              (err - dy + dx) (by split_ifs at hm ⊢ <;> omega)
          refine ⟨⟨p, ?_, hpstop⟩, ?_⟩
          · rw [getLast?_cons_ne_nil _ (bresLoop_ne_nil _ _ _ _ _ _ _ _ _ _ _ _ _)]
            exact hlast
          · rw [List.dropLast_cons_of_ne_nil (bresLoop_ne_nil _ _ _ _ _ _ _ _ _ _ _ _ _)]
            intro p' hp'
            rcases List.mem_cons.mp hp' with rfl | hp'
            · exact hstop
            · exact hdrop p' hp'
        · simp only [if_neg hc2]
          obtain ⟨⟨p, hlast, hpstop⟩, hdrop⟩ :=
            ih (x1 + (if sxPos then (1 : Int) else -1)) y1 (err - dy)
              (by split_ifs at hm ⊢ <;> omega)
          refine ⟨⟨p, ?_, hpstop⟩, ?_⟩
          · rw [getLast?_cons_ne_nil _ (bresLoop_ne_nil _ _ _ _ _ _ _ _ _ _ _ _ _)]
            exact hlast
          · rw [List.dropLast_cons_of_ne_nil (bresLoop_ne_nil _ _ _ _ _ _ _ _ _ _ _ _ _)]
            intro p' hp'
            rcases List.mem_cons.mp hp' with rfl | hp'
            · exact hstop
            · exact hdrop p' hp'
      · simp only [if_neg hc1]
        by_cases hc2 : err < dy
        · simp only [if_pos hc2]
          obtain ⟨⟨p, hlast, hpstop⟩, hdrop⟩ :=
            ih x1 (y1 + (if syPos then (1 : Int) else -1)) (err + dx)
              (by split_ifs at hm ⊢ <;> omega)
          refine ⟨⟨p, ?_, hpstop⟩, ?_⟩
          · rw [getLast?_cons_ne_nil _ (bresLoop_ne_nil _ _ _ _ _ _ _ _ _ _ _ _ _)]
            exact hlast
          · rw [List.dropLast_cons_of_ne_nil (bresLoop_ne_nil _ _ _ _ _ _ _ _ _ _ _ _ _)]
            intro p' hp'
            rcases List.mem_cons.mp hp' with rfl | hp'
            · exact hstop
            · exact hdrop p' hp'
        · omega

/-- C6 counterexample: on a 4×4 screen, the line (4,0)→(0,4) starts with
its current x EQUAL to the buffer width (4): the loop does not terminate
there (the bound check is strict `>`), and further pixels — (3,1), (2,2),
(1,3), all strictly inside the buffer — are plotted after that point. -/
theorem draw_line_bound_check_not_inclusive :
    drawLinePts 4 4 ⟨4, 0⟩ ⟨0, 4⟩ = [⟨4, 0⟩, ⟨3, 1⟩, ⟨2, 2⟩, ⟨1, 3⟩, ⟨0, 4⟩] := by
  have e1 : drawLinePts 4 4 ⟨4, 0⟩ ⟨0, 4⟩ =
      bresLoop 4 4 0 4 4 4 false true (by norm_num) (by norm_num) 4 0 (-2) := by
    with_unfolding_all rfl
  rw [e1]
  rw [bresLoop]
  rw [if_neg (by omega)]
  norm_num
  rw [bresLoop]
  rw [if_neg (by omega)]
  norm_num
  rw [bresLoop]
  rw [if_neg (by omega)]
  norm_num
  rw [bresLoop]
  rw [if_neg (by omega)]
  norm_num
  rw [bresLoop]
  rw [if_pos (by omega)]

/-- Witness for C6 (amended), instantiating the stop characterisation on the
line (4,0)→(0,4) of the counterexample: the loop's final plotted point
satisfies the strict stop condition and no earlier plotted point does. -/
theorem bresLoop_stop_witness :
    ((if false then (4 : Int) + 1 - 4 else 4) +
      (if true then (4 : Int) + 1 - 0 else 0) + 2).toNat ≤ 11 ∧
    (∃ p : IVec2,
      (bresLoop 4 4 0 4 4 4 false true (by norm_num) (by norm_num) 4 0 (-2)).getLast? = some p ∧
      ((p.x = 0 ∧ p.y = 4) ∨ p.x < 0 ∨ ((4 : Nat) : Int) < p.x ∨ p.y < 0 ∨ ((4 : Nat) : Int) < p.y)) :=
  ⟨by norm_num,
    (bresLoop_stop 4 4 0 4 4 4 false true (by norm_num) (by norm_num) 11 4 0 (-2)
      (by norm_num)).1⟩

theorem count_flatMap_id_zero :
    ∀ (blocks : List (List FrameEvent)), (∀ B ∈ blocks, FrameEvent.exitCb ∉ B) →
      (blocks.flatMap id).count FrameEvent.exitCb = 0 := by
  intro blocks
  induction blocks with
  | nil => intro _; rfl
  | cons B bs ih =>
    intro hall
    rw [List.flatMap_cons, List.count_append]
    have h1 : B.count FrameEvent.exitCb = 0 :=
      List.count_eq_zero.mpr (hall B (List.mem_cons_self B bs))
    have h2 := ih (fun B' hB' => hall B' (List.mem_cons_of_mem B hB'))
    simp only [id] at h1 ⊢
    omega

/-- Every completed run of the loop produces, tick block by tick block, the
full per-tick event sequence, and ends with the single teardown event. -/
theorem runLoop_trace_shape {σ : Type} (env : Nat → TickEnv) (app : RainApp σ) :
    ∀ (fuel k : Nat) (s : σ) (st : EngineState) (sf : σ) (tr : List FrameEvent),
      runLoop env app fuel k s st = some (sf, tr) →
      ∃ blocks : List (List FrameEvent),
        (∀ B ∈ blocks,
          B = [FrameEvent.update, FrameEvent.present, FrameEvent.checks] ∨
          B = [FrameEvent.update, FrameEvent.present, FrameEvent.fpsReset, FrameEvent.checks]) ∧
        tr = blocks.flatMap id ++ [FrameEvent.exitCb] := by
  intro fuel
  induction fuel with
  | zero =>
    intro k s st sf tr hrun
    exact absurd hrun (by rw [runLoop]; exact Option.noConfusion)
  | succ fuel ih =>
    intro k s st sf tr hrun
    rw [runLoop] at hrun
    by_cases hact : st.active
    · rw [if_pos hact] at hrun
      obtain ⟨s', st', evs, htick⟩ :
          ∃ s' st' evs, tick (env k) app s st = (s', st', evs) :=
        ⟨_, _, _, rfl⟩
      rw [htick] at hrun
      dsimp only at hrun
      cases hrec : runLoop env app fuel (k + 1) s' st' with
      | none => rw [hrec] at hrun; exact absurd hrun Option.noConfusion
      | some pr =>
        obtain ⟨sf', tr'⟩ := pr
        rw [hrec] at hrun
        injection hrun with hpair
        injection hpair with hsf htr
        obtain ⟨blocks, hshape, htr'⟩ := ih (k + 1) s' st' sf' tr' hrec
        have hevs : evs = [FrameEvent.update, FrameEvent.present, FrameEvent.checks] ∨
            evs = [FrameEvent.update, FrameEvent.present, FrameEvent.fpsReset,
              FrameEvent.checks] := by
          unfold tick at htick
          revert htick
          cases happ : app.on_update s st with
          | mk s'' st'' =>
            dsimp only
            intro htick
            injection htick with h1 hrest
            injection hrest with h2 h3
            by_cases hft : st''.frame_timer + (env k).elapsed ≥ 1
            · right
              rw [← h3, if_pos hft]
              rfl
            · left
              rw [← h3, if_neg hft]
              rfl
        refine ⟨evs :: blocks, ?_, ?_⟩
        · intro B hB
          rcases List.mem_cons.mp hB with rfl | hB
          · exact hevs
          · exact hshape B hB
        · rw [← htr, htr', List.flatMap_cons]
          simp [List.append_assoc]
    · rw [if_neg hact] at hrun
      injection hrun with hpair
      injection hpair with hsf htr
      exact ⟨[], by simp, htr.symm⟩

/-- C9: for every application callback object and every completed run, the
teardown hook runs exactly once, strictly after the loop has exited: the
event trace is the start hook, then a sequence of COMPLETE tick blocks —
each update callback is followed in the same tick by the present, the
optional FPS reset, and the termination checks, so an `exit()` call inside
`on_update` never aborts the remainder of its tick — and the single
teardown event comes last, after the final full tick. -/
theorem run_teardown_once {σ : Type} (fuel : Nat) (env : Nat → TickEnv) (app : RainApp σ)
    (s : σ) (st : EngineState) (sf : σ) (tr : List FrameEvent)
    (hrun : run fuel env app s st = some (sf, tr)) :
    tr.count FrameEvent.exitCb = 1 ∧
    ∃ blocks : List (List FrameEvent),
      (∀ B ∈ blocks,
        B = [FrameEvent.update, FrameEvent.present, FrameEvent.checks] ∨
        B = [FrameEvent.update, FrameEvent.present, FrameEvent.fpsReset, FrameEvent.checks]) ∧
      tr = FrameEvent.start :: (blocks.flatMap id ++ [FrameEvent.exitCb]) := by
  unfold run at hrun
  cases hloop : runLoop env app fuel 0 (app.on_start s) st with
  | none => rw [hloop] at hrun; exact absurd hrun Option.noConfusion
  | some pr =>
    obtain ⟨sf', tr'⟩ := pr
    rw [hloop] at hrun
    injection hrun with hpair
    injection hpair with hsf htr
    obtain ⟨blocks, hshape, htr'⟩ :=
      runLoop_trace_shape env app fuel 0 (app.on_start s) st sf' tr' hloop
    have hnoexit : ∀ B ∈ blocks, FrameEvent.exitCb ∉ B := by
      intro B hB
      rcases hshape B hB with rfl | rfl <;> decide
    constructor
    · rw [← htr, htr']
      rw [List.count_cons, List.count_append]
      rw [count_flatMap_id_zero blocks hnoexit]
      rfl
    · exact ⟨blocks, hshape, by rw [← htr, htr']⟩

/-- Witness for C9: an app whose update callback calls `exit()` on the very
first tick.  The run completes with the full first tick (present, FPS
reset, checks all still execute after the exit call) and exactly one
teardown event at the very end. -/
theorem run_teardown_once_witness :
    run 2 (fun _ => ⟨1, true, false⟩)
      (⟨id, fun s st => (s, { st with active := false }), id⟩ : RainApp Unit) ()
      (initEngineState false) =
      some ((), [FrameEvent.start, FrameEvent.update, FrameEvent.present, FrameEvent.fpsReset,
        FrameEvent.checks, FrameEvent.exitCb]) ∧
    [FrameEvent.start, FrameEvent.update, FrameEvent.present, FrameEvent.fpsReset,
      FrameEvent.checks, FrameEvent.exitCb].count FrameEvent.exitCb = 1 := by
  have hrun : run 2 (fun _ => ⟨1, true, false⟩)
      (⟨id, fun s st => (s, { st with active := false }), id⟩ : RainApp Unit) ()
      (initEngineState false) =
      some ((), [FrameEvent.start, FrameEvent.update, FrameEvent.present, FrameEvent.fpsReset,
        FrameEvent.checks, FrameEvent.exitCb]) := by
    with_unfolding_all decide
  exact ⟨hrun, (run_teardown_once 2 (fun _ => ⟨1, true, false⟩)
    (⟨id, fun s st => (s, { st with active := false }), id⟩ : RainApp Unit) ()
    (initEngineState false) () _ hrun).1⟩
